import Mathlib

/-
Verification of the concurrency primitives of the misc-playground repository:
the blocking bounded queue (SafeQueue, safe_queue_impl.h, C++11 variant),
the lock-free circular queues (ArrayLockFreeQueueSingleProducer and the
multiple-producer ArrayLockFreeQueue), and the ConsumerThread worker.

The C++ code is embedded shallowly:

* `std::queue<T>` becomes `List T` with the front at the head.
* `uint32_t` counters become `Nat` reduced `% 2 ^ 32` exactly where the
  C++ arithmetic wraps (`fetch_add`, `x + 1` inside an expression).
* Blocking operations are given their single-threaded semantics: a wait
  whose predicate no other thread can change never returns, so a blocking
  call that would wait is modelled as `none`; a CAS with no competing
  thread succeeds on the first attempt, so a CAS retry loop runs its body
  once.  The multiple-producer commit protocol, which is inherently
  concurrent, is additionally modelled as an interleaving transition
  system further below.
-/

/-! ## SafeQueue (src/unnamed/part_002, safe_queue_impl.h, C++11 port)

`m_mutex` and `m_cond` have no data content; the model keeps the fields
that carry state (`m_theQueue`, `m_maximumSize`) and returns, next to the
result of each member function, the Bool that records whether the function
executed `m_cond.notify_all()`. -/

structure SafeQueue (T : Type) where
  m_theQueue : List T
  m_maximumSize : Nat
deriving DecidableEq

/-- SafeQueue constructor: the internal queue starts out empty. -/
def SafeQueue.init (T : Type) (a_maxSize : Nat) : SafeQueue T :=
  { m_theQueue := [], m_maximumSize := a_maxSize }

/-- IsEmpty, from safe_queue_impl.h: `return m_theQueue.empty()`. -/
def SafeQueue.IsEmpty (q : SafeQueue T) : Bool :=
  q.m_theQueue.isEmpty

/-- Push (blocking), from safe_queue_impl.h.  While `size >= m_maximumSize`
the thread waits on `m_cond`; single-threaded, nobody can pop, so a full
queue means the call never returns (`none`).  Otherwise the element is
appended and `notify_all` runs iff the queue was empty beforehand. -/
def SafeQueue.Push (q : SafeQueue T) (a_elem : T) : Option (SafeQueue T × Bool) :=
  if q.m_theQueue.length ≥ q.m_maximumSize then
    none
  else
    some ({ q with m_theQueue := q.m_theQueue ++ [a_elem] }, q.m_theQueue.isEmpty)

/-- TryPush, from safe_queue_impl.h.  Returns (rv, new state, notified).
`rv` is true iff `size < m_maximumSize`; note that in the source the
`notify_all` call is guarded only by `queueEmpty`, the emptiness of the
queue on entry, not by `rv`. -/
def SafeQueue.TryPush (q : SafeQueue T) (a_elem : T) : Bool × SafeQueue T × Bool :=
  let queueEmpty := q.m_theQueue.isEmpty
  if q.m_theQueue.length < q.m_maximumSize then
    (true, { q with m_theQueue := q.m_theQueue ++ [a_elem] }, queueEmpty)
  else
    (false, q, queueEmpty)

/-- Pop (blocking), from safe_queue_impl.h.  While empty the thread waits;
single-threaded that never ends, so `none`.  Otherwise the front element is
removed and `notify_all` runs iff the queue was full beforehand. -/
def SafeQueue.Pop (q : SafeQueue T) : Option (T × SafeQueue T × Bool) :=
  match q.m_theQueue with
  | [] => none
  | x :: rest =>
      some (x, { q with m_theQueue := rest },
        decide (q.m_theQueue.length ≥ q.m_maximumSize))

/-- TryPop, from safe_queue_impl.h: `none` models `rv == false` with the
queue untouched. -/
def SafeQueue.TryPop (q : SafeQueue T) : Option (T × SafeQueue T × Bool) :=
  match q.m_theQueue with
  | [] => none
  | x :: rest =>
      some (x, { q with m_theQueue := rest },
        decide (q.m_theQueue.length ≥ q.m_maximumSize))

/-- TimedWaitPop, from safe_queue_impl.h.  `wait_until` with the predicate
`m_theQueue.size() > 0` returns false only when the deadline passed with
the predicate still false; single-threaded the predicate cannot change
while waiting, so its value is decided by the state on entry.  Result:
(popped element or `none` on timeout, new state, notified). -/
def SafeQueue.TimedWaitPop (q : SafeQueue T) : Option T × SafeQueue T × Bool :=
  if q.m_theQueue.length > 0 then
    match q.m_theQueue with
    | [] => (none, q, false)
    | x :: rest =>
        (some x, { q with m_theQueue := rest },
          decide (q.m_theQueue.length ≥ q.m_maximumSize))
  else
    (none, q, false)

/-- WakeUpSignalNeeded, from safe_queue_impl.h: waiting threads must be
woken when `this` is empty and the source is not, or when `this` is full
and the source is below its own maximum. -/
def SafeQueue.WakeUpSignalNeeded (q a_src : SafeQueue T) : Bool :=
  if q.m_theQueue.isEmpty && !a_src.m_theQueue.isEmpty then
    true
  else if decide (q.m_theQueue.length ≥ q.m_maximumSize)
      && decide (a_src.m_theQueue.length < a_src.m_maximumSize) then
    true
  else
    false

/-- Copy assignment `operator=`, from safe_queue_impl.h, for two distinct
queue objects: compute `WakeUpSignalNeeded`, copy `m_maximumSize` and
`m_theQueue` from the source, and `notify_all` iff the computed flag was
set.  Returns (new destination state, notified). -/
def SafeQueue.assignFrom (q a_src : SafeQueue T) : SafeQueue T × Bool :=
  let wakeUpWaitingThreads := q.WakeUpSignalNeeded a_src
  ({ m_theQueue := a_src.m_theQueue, m_maximumSize := a_src.m_maximumSize },
   wakeUpWaitingThreads)

/-- Invariant of the data model: the number of stored elements never
exceeds the configured maximum. -/
def SafeQueue.sizeInvariant (q : SafeQueue T) : Prop :=
  q.m_theQueue.length ≤ q.m_maximumSize

/-! ## Sequential runs over a SafeQueue, for the FIFO claim -/

/-- One queue operation of a sequential run. -/
inductive QOp (T : Type) where
  | push (v : T)
  | tryPush (v : T)
  | pop
  | tryPop
  | timedWaitPop
deriving DecidableEq

/-- One operation applied to a state.  Result: `none` when a blocking
operation can never return in a single-threaded run, otherwise the new
state, the list of values pushed successfully by this operation (empty or
a singleton) and the list of values returned by this operation's
successful pop (empty or a singleton). -/
def SafeQueue.stepOp (q : SafeQueue T) : QOp T → Option (SafeQueue T × List T × List T)
  | .push v =>
      (q.Push v).map (fun r => (r.1, [v], []))
  | .tryPush v =>
      let r := q.TryPush v
      some (r.2.1, if r.1 then [v] else [], [])
  | .pop =>
      q.Pop.map (fun r => (r.2.1, [], [r.1]))
  | .tryPop =>
      match q.TryPop with
      | none => some (q, [], [])
      | some r => some (r.2.1, [], [r.1])
  | .timedWaitPop =>
      let r := q.TimedWaitPop
      match r.1 with
      | none => some (r.2.1, [], [])
      | some x => some (r.2.1, [], [x])

/-- A sequence of operations applied from a state: final state, values
pushed successfully in order, values popped successfully in order.
`none` when some blocking operation would never return. -/
def SafeQueue.runOps (q : SafeQueue T) : List (QOp T) → Option (SafeQueue T × List T × List T)
  | [] => some (q, [], [])
  | op :: rest =>
      match q.stepOp op with
      | none => none
      | some (q1, ps1, os1) =>
          match q1.runOps rest with
          | none => none
          | some (qf, ps, os) => some (qf, ps1 ++ ps, os1 ++ os)

/-! ## ArrayLockFreeQueueSingleProducer
(src/cpp/lock_free_queue_impl_single_producer.h, C++11 variant, and
src/lock_free_queue_impl_single_producer.h, pthread-era variant)

`m_writeIndex` and `m_readIndex` are `uint32_t`: the stored values are
always `< 2 ^ 32` and every increment wraps modulo `2 ^ 32`.  The array
`m_theQueue[Q_SIZE]` is a `List T` of length `Q_SIZE`. -/

/-- Modulus of the `uint32_t` counters: `2 ^ 32` written as a numeral. -/
def U32 : Nat := 4294967296

/-- countToIndex, identical in every variant: `a_count % Q_SIZE`. -/
def countToIndex (Q_SIZE a_count : Nat) : Nat :=
  a_count % Q_SIZE

structure ArrayLockFreeQueueSingleProducer (T : Type) where
  m_theQueue : List T
  m_writeIndex : Nat
  m_readIndex : Nat
deriving DecidableEq

/-- The array size `Q_SIZE` of the template instantiation. -/
def ArrayLockFreeQueueSingleProducer.qsize (q : ArrayLockFreeQueueSingleProducer T) : Nat :=
  q.m_theQueue.length

/-- Constructor: both counters start at 0; the array cells hold whatever
the uninitialised `ELEM_T m_theQueue[Q_SIZE]` holds, here an arbitrary
list `slots` of length `Q_SIZE`. -/
def ArrayLockFreeQueueSingleProducer.mkFresh (slots : List T) :
    ArrayLockFreeQueueSingleProducer T :=
  { m_theQueue := slots, m_writeIndex := 0, m_readIndex := 0 }

/-- push, from lock_free_queue_impl_single_producer.h (both variants have
the same push body).  `currentWriteIndex + 1` is computed in `uint32_t`,
hence the `% U32`; on success the element is stored at
`countToIndex currentWriteIndex` and the write index is incremented with
wraparound. -/
def ArrayLockFreeQueueSingleProducer.push (q : ArrayLockFreeQueueSingleProducer T)
    (a_data : T) : Bool × ArrayLockFreeQueueSingleProducer T :=
  if countToIndex q.qsize ((q.m_writeIndex + 1) % U32)
      = countToIndex q.qsize q.m_readIndex then
    (false, q)
  else
    (true,
     { q with
       m_theQueue := q.m_theQueue.set (countToIndex q.qsize q.m_writeIndex) a_data,
       m_writeIndex := (q.m_writeIndex + 1) % U32 })

/-- pop, from lock_free_queue_impl_single_producer.h, single-threaded: the
CAS on `m_readIndex` cannot lose, so the retry loop runs once.  Returns the
element at `countToIndex currentReadIndex` and the state with the read
index incremented, or `none` when empty. -/
def ArrayLockFreeQueueSingleProducer.pop [Inhabited T]
    (q : ArrayLockFreeQueueSingleProducer T) :
    Option (T × ArrayLockFreeQueueSingleProducer T) :=
  if countToIndex q.qsize q.m_readIndex = countToIndex q.qsize q.m_writeIndex then
    none
  else
    some (q.m_theQueue.getD (countToIndex q.qsize q.m_readIndex) default,
      { q with m_readIndex := (q.m_readIndex + 1) % U32 })

/-- size, C++11 variant (src/cpp/lock_free_queue_impl_single_producer.h,
`_WITH_LOCK_FREE_Q_KEEP_REAL_SIZE` undefined): the branch compares
`countToIndex` of the two counters; both subtractions are `uint32_t`
arithmetic, written here as `+ U32 - _` under `% U32`. -/
def ArrayLockFreeQueueSingleProducer.size_cpp11 (q : ArrayLockFreeQueueSingleProducer T) : Nat :=
  if countToIndex q.qsize q.m_writeIndex ≥ countToIndex q.qsize q.m_readIndex then
    (q.m_writeIndex + U32 - q.m_readIndex) % U32
  else
    (q.qsize + q.m_writeIndex + U32 - q.m_readIndex) % U32

/-- size, pthread-era variant (src/lock_free_queue_impl_single_producer.h
and src/lock_free_queue_impl.h, `LOCK_FREE_Q_KEEP_REAL_SIZE` undefined):
the branch compares the raw counters, not `countToIndex` of them. -/
def ArrayLockFreeQueueSingleProducer.size_pthread (q : ArrayLockFreeQueueSingleProducer T) : Nat :=
  if q.m_writeIndex ≥ q.m_readIndex then
    (q.m_writeIndex + U32 - q.m_readIndex) % U32
  else
    (q.qsize + q.m_writeIndex + U32 - q.m_readIndex) % U32

/-- Follows the words of the spec for the refinement comparison of C4:
"it returns (write_count − read_count) interpreted in a wraparound-safe
way (if index(write_count) ≥ index(read_count) use the plain difference,
else add N)", the differences taken in `uint32_t` arithmetic. -/
def ArrayLockFreeQueueSingleProducer.sizeSpecForm (q : ArrayLockFreeQueueSingleProducer T) : Nat :=
  if countToIndex q.qsize q.m_writeIndex ≥ countToIndex q.qsize q.m_readIndex then
    (q.m_writeIndex + U32 - q.m_readIndex) % U32
  else
    (q.qsize + q.m_writeIndex + U32 - q.m_readIndex) % U32

/-- Pushing a list of values one after the other: the list of returned
Bools, and the final state. -/
def ArrayLockFreeQueueSingleProducer.pushAll (q : ArrayLockFreeQueueSingleProducer T) :
    List T → List Bool × ArrayLockFreeQueueSingleProducer T
  | [] => ([], q)
  | v :: vs =>
      let r := q.push v
      let rs := r.2.pushAll vs
      (r.1 :: rs.1, rs.2)

/-! ## Sequential runs over the single-producer ring, for the FIFO claim -/

/-- One ring operation of a sequential run. -/
inductive SPOp (T : Type) where
  | push (v : T)
  | pop
deriving DecidableEq

/-- A sequence of push/pop operations applied from a state: final state,
values pushed successfully in order, values popped successfully in order.
Total: a failed push or pop just returns false and the run continues. -/
def ArrayLockFreeQueueSingleProducer.runOps [Inhabited T]
    (q : ArrayLockFreeQueueSingleProducer T) :
    List (SPOp T) → ArrayLockFreeQueueSingleProducer T × List T × List T
  | [] => (q, [], [])
  | .push v :: rest =>
      let r := q.push v
      let rs := r.2.runOps rest
      (rs.1, (if r.1 then [v] else []) ++ rs.2.1, rs.2.2)
  | .pop :: rest =>
      match q.pop with
      | none => q.runOps rest
      | some (x, q1) =>
          let rs := q1.runOps rest
          (rs.1, rs.2.1, x :: rs.2.2)

/-- The live window of the ring as an abstract list, oldest element
first: the cells at `countToIndex (m_readIndex + i)` for
`i < m_writeIndex - m_readIndex`.  Meaningful in the wrap-free regime
`m_readIndex ≤ m_writeIndex`. -/
def ArrayLockFreeQueueSingleProducer.absList [Inhabited T]
    (q : ArrayLockFreeQueueSingleProducer T) : List T :=
  (List.range (q.m_writeIndex - q.m_readIndex)).map
    (fun i => q.m_theQueue.getD (countToIndex q.qsize (q.m_readIndex + i)) default)

/-! ## ArrayLockFreeQueue, multiple-producer specialisation, sequential
(src/lock_free_queue_impl_multiple_producer.h and
src/lock_free_queue_impl.h without LOCK_FREE_Q_SINGLE_PRODUCER)

In a single-threaded run the CAS on `m_writeIndex` succeeds on the first
attempt.  The commit CAS on `m_maximumReadIndex` succeeds iff
`m_maximumReadIndex == currentWriteIndex`; otherwise the
`sched_yield()` loop spins forever with no other thread to advance it,
modelled as `none`. -/

structure ArrayLockFreeQueue (T : Type) where
  m_theQueue : List T
  m_writeIndex : Nat
  m_readIndex : Nat
  m_maximumReadIndex : Nat
deriving DecidableEq

def ArrayLockFreeQueue.qsize (q : ArrayLockFreeQueue T) : Nat :=
  q.m_theQueue.length

/-- Constructor: all three counters start at 0. -/
def ArrayLockFreeQueue.mkFresh (slots : List T) : ArrayLockFreeQueue T :=
  { m_theQueue := slots, m_writeIndex := 0, m_readIndex := 0, m_maximumReadIndex := 0 }

/-- push, multiple-producer variant, single-threaded: full check on
`countToIndex (currentWriteIndex + 1)` vs `countToIndex currentReadIndex`,
then the data store, then the commit CAS on `m_maximumReadIndex`. -/
def ArrayLockFreeQueue.push (q : ArrayLockFreeQueue T) (a_data : T) :
    Option (Bool × ArrayLockFreeQueue T) :=
  if countToIndex q.qsize ((q.m_writeIndex + 1) % U32)
      = countToIndex q.qsize q.m_readIndex then
    some (false, q)
  else if q.m_maximumReadIndex = q.m_writeIndex then
    some (true,
      { q with
        m_theQueue := q.m_theQueue.set (countToIndex q.qsize q.m_writeIndex) a_data,
        m_writeIndex := (q.m_writeIndex + 1) % U32,
        m_maximumReadIndex := (q.m_writeIndex + 1) % U32 })
  else
    none

/-- pop, multiple-producer variant, single-threaded: the emptiness check
compares `countToIndex currentReadIndex` with
`countToIndex currentMaximumReadIndex`, and the read-index CAS succeeds
on the first attempt. -/
def ArrayLockFreeQueue.pop [Inhabited T] (q : ArrayLockFreeQueue T) :
    Option (T × ArrayLockFreeQueue T) :=
  if countToIndex q.qsize q.m_readIndex = countToIndex q.qsize q.m_maximumReadIndex then
    none
  else
    some (q.m_theQueue.getD (countToIndex q.qsize q.m_readIndex) default,
      { q with m_readIndex := (q.m_readIndex + 1) % U32 })

/-- Pushing a list of values one after the other on the multiple-producer
queue (single-threaded). -/
def ArrayLockFreeQueue.pushAll (q : ArrayLockFreeQueue T) :
    List T → Option (List Bool × ArrayLockFreeQueue T)
  | [] => some ([], q)
  | v :: vs =>
      match q.push v with
      | none => none
      | some (b, q1) =>
          match q1.pushAll vs with
          | none => none
          | some (bs, qf) => some (b :: bs, qf)

/-! ## ArrayLockFreeQueue, multiple-producer, as an interleaving system
(src/lock_free_queue_impl_multiple_producer.h push, pop)

Each producer thread executes the push body: a winning CAS on
`m_writeIndex` (the reservation), the store of the data into the owned
slot, then a winning CAS on `m_maximumReadIndex` (the commit), which by
the code succeeds only when `m_maximumReadIndex` equals the producer's
reserved counter.  Losing CAS attempts and the `sched_yield()` retries
change no shared state and are omitted as stutter steps.  The full check
that may abort a push only removes behaviours, so it is dropped: every
invariant proved over this larger system holds for the guarded one.
`resHist`/`commitHist` are ghost histories recording each successful
reservation and commit as (producer id, reserved counter), in order. -/

/-- Program counter of one producer thread inside `push`. -/
inductive PPC (T : Type) where
  | idle : PPC T
  | reserved : Nat → T → PPC T
  | wroteData : Nat → T → PPC T
deriving DecidableEq

/-- The shared state, the producers, and the ghost histories. -/
structure MPSys (T : Type) where
  m_theQueue : List T
  m_writeIndex : Nat
  m_readIndex : Nat
  m_maximumReadIndex : Nat
  nProds : Nat
  prods : Nat → PPC T
  resHist : List (Nat × Nat)
  commitHist : List (Nat × Nat)

/-- Initial system: fresh queue, `nProds` idle producers. -/
def MPSys.start (slots : List T) (nProds : Nat) : MPSys T :=
  { m_theQueue := slots, m_writeIndex := 0, m_readIndex := 0,
    m_maximumReadIndex := 0, nProds := nProds,
    prods := fun _ => PPC.idle, resHist := [], commitHist := [] }

/-- Producer `p` holds the uncommitted reservation `cur`. -/
def PPC.holdsPending (pc : PPC T) (cur : Nat) : Prop :=
  (∃ v, pc = PPC.reserved cur v) ∨ (∃ v, pc = PPC.wroteData cur v)

/-- One interleaved step of the multiple-producer push protocol or of a
consumer's pop. -/
inductive MPStep : MPSys T → MPSys T → Prop where
  | reserve (s : MPSys T) (p : Nat) (v : T) :
      p < s.nProds → s.prods p = PPC.idle →
      MPStep s { s with
        m_writeIndex := (s.m_writeIndex + 1) % U32,
        prods := Function.update s.prods p (PPC.reserved s.m_writeIndex v),
        resHist := s.resHist ++ [(p, s.m_writeIndex)] }
  | writeData (s : MPSys T) (p cur : Nat) (v : T) :
      p < s.nProds → s.prods p = PPC.reserved cur v →
      MPStep s { s with
        m_theQueue := s.m_theQueue.set (countToIndex s.m_theQueue.length cur) v,
        prods := Function.update s.prods p (PPC.wroteData cur v) }
  | commit (s : MPSys T) (p cur : Nat) (v : T) :
      p < s.nProds → s.prods p = PPC.wroteData cur v →
      s.m_maximumReadIndex = cur →
      MPStep s { s with
        m_maximumReadIndex := (cur + 1) % U32,
        prods := Function.update s.prods p PPC.idle,
        commitHist := s.commitHist ++ [(p, cur)] }
  | popOk (s : MPSys T) :
      ¬ countToIndex s.m_theQueue.length s.m_readIndex
        = countToIndex s.m_theQueue.length s.m_maximumReadIndex →
      MPStep s { s with m_readIndex := (s.m_readIndex + 1) % U32 }

/-- The states a system of `nProds` producers and any number of consumers
can reach. -/
def MPSys.Reachable (s0 s : MPSys T) : Prop :=
  Relation.ReflTransGen MPStep s0 s

/-! ## ConsumerThread (src/lock_free_queue.h second part, C++11 variant;
src/consumer_thread_impl.h, pthread variant)

`ThreadRoutine` first calls the init delegate, then loops: observe
`m_terminate`; when false, do a timed pop and call the consume delegate on
a popped value.  A run of the loop is driven by the sequence of
observations the routine makes, one pair (value of `m_terminate`, result
of `TimedWaitPop`) per iteration; the trace of delegate invocations is a
function of that sequence. -/

/-- A delegate invocation made by the worker thread. -/
inductive CTEvent (T : Type) where
  | init : CTEvent T
  | consume : T → CTEvent T
deriving DecidableEq

def CTEvent.isInit : CTEvent T → Bool
  | .init => true
  | .consume _ => false

/-- The loop of `ThreadRoutine`: one (terminate observation, pop result)
pair per iteration.  A `true` observation ends the loop; a successful pop
leads to a consume invocation.  A finite schedule models a finite prefix
of the loop's execution. -/
def ConsumerThread.loopEvents : List (Bool × Option T) → List (CTEvent T)
  | [] => []
  | (true, _) :: _ => []
  | (false, none) :: rest => ConsumerThread.loopEvents rest
  | (false, some v) :: rest => CTEvent.consume v :: ConsumerThread.loopEvents rest

/-- ThreadRoutine: the init delegate once, then the loop. -/
def ConsumerThread.ThreadRoutine (sched : List (Bool × Option T)) : List (CTEvent T) :=
  CTEvent.init :: ConsumerThread.loopEvents sched

/-- The lifecycle state of a ConsumerThread that `Join` and the destructor
act on: the `m_terminate` flag and the `m_producerThread` handle
(`some ()` = the `unique_ptr` owns a joinable thread, `none` = it was
reset). -/
structure CTState where
  m_terminate : Bool
  m_producerThread : Option Unit
deriving DecidableEq

/-- Join, C++11 variant: store true into `m_terminate`, then
`m_producerThread->join()` and reset.  When the handle was already reset,
`operator->` dereferences a null `unique_ptr`: undefined behaviour,
modelled as `none`. -/
def CTState.Join (s : CTState) : Option CTState :=
  match s.m_producerThread with
  | none => none
  | some _ => some { m_terminate := true, m_producerThread := none }

/-- The destructor body, C++11 variant: call `Join` only when
`m_producerThread.get()` is non-null. -/
def CTState.destructor (s : CTState) : Option CTState :=
  match s.m_producerThread with
  | none => some s
  | some _ => s.Join

/-! ## The claims under test, stated verbatim (used by the refutations) -/

/-- Claim C1 as stated: on a SafeQueue and on a fresh single-producer
ring, over every sequence of operations executed one at a time, the
sequence of successfully popped values equals the sequence of
successfully pushed values in push order, one push per pop (i.e. the
popped sequence is the pushed sequence's prefix of its length). -/
def ClaimC1 : Prop :=
  (∀ (cap : Nat) (ops : List (QOp Nat)) (qf : SafeQueue Nat) (ps os : List Nat),
      (SafeQueue.init Nat cap).runOps ops = some (qf, ps, os) →
      os = ps.take os.length)
  ∧ (∀ (slots : List Nat) (ops : List (SPOp Nat)), slots ≠ [] →
      ((ArrayLockFreeQueueSingleProducer.mkFresh slots).runOps ops).2.2
        = (((ArrayLockFreeQueueSingleProducer.mkFresh slots).runOps ops).2.1).take
            ((((ArrayLockFreeQueueSingleProducer.mkFresh slots).runOps ops)).2.2).length)

/-- Claim C4 as stated: in every state with the exact-count feature
disabled, size() returns the wraparound-safe counter difference selected
by comparing `index(write_count)` with `index(read_count)` — for both
implementations of the single-producer ring. -/
def ClaimC4 : Prop :=
  ∀ (q : ArrayLockFreeQueueSingleProducer Nat),
    q.size_cpp11 = q.sizeSpecForm ∧ q.size_pthread = q.sizeSpecForm

/-- Claim C6 as stated: TryPush succeeds exactly when there is room,
failure leaves the queue unchanged, and the condition variable is
signalled iff the queue was empty immediately before the successful store
(so a failed TryPush never signals). -/
def ClaimC6 : Prop :=
  ∀ (q : SafeQueue Nat) (v : Nat),
    ((q.TryPush v).1 = true ↔ q.m_theQueue.length < q.m_maximumSize)
    ∧ ((q.TryPush v).1 = false → (q.TryPush v).2.1 = q)
    ∧ ((q.TryPush v).2.2 = true ↔ (q.m_theQueue = [] ∧ (q.TryPush v).1 = true))

/-- Claim C9 as stated: Join sets the stop flag and waits, and a second
call to Join after the handle has been cleared is a no-op (it does not
fail or invoke undefined behaviour). -/
def ClaimC9 : Prop :=
  ∀ (s s' : CTState), s.Join = some s' → s'.Join = some s'

/-- The inductive invariant of the multiple-producer interleaving
system: the ghost histories pin down the shared counters, reservations
carry the counters 0, 1, 2, … modulo `2 ^ 32` in order, the commits made
so far are exactly the first reservations, and the uncommitted
reservations are held by pairwise-distinct pending producers. -/
structure MPInv (s : MPSys T) : Prop where
  nProdsLt : s.nProds < U32
  writeCount : s.m_writeIndex = s.resHist.length % U32
  maxReadCount : s.m_maximumReadIndex = s.commitHist.length % U32
  resSeq : ∀ (i : Nat) (h : i < s.resHist.length),
    (s.resHist.get ⟨i, h⟩).2 = i % U32
  commitPrefix : s.commitHist = s.resHist.take s.commitHist.length
  pendingHolds : ∀ (i : Nat) (h : i < s.resHist.length),
    s.commitHist.length ≤ i →
    PPC.holdsPending (s.prods (s.resHist.get ⟨i, h⟩).1) (s.resHist.get ⟨i, h⟩).2
  pendingOf : ∀ (p cur : Nat), PPC.holdsPending (s.prods p) cur →
    ∃ (i : Nat) (h : i < s.resHist.length), s.commitHist.length ≤ i ∧
      s.resHist.get ⟨i, h⟩ = (p, cur)
  pidRange : ∀ (i : Nat) (h : i < s.resHist.length),
    (s.resHist.get ⟨i, h⟩).1 < s.nProds
  pendingDistinct : ∀ (i j : Nat) (hi : i < s.resHist.length)
    (hj : j < s.resHist.length),
    s.commitHist.length ≤ i → s.commitHist.length ≤ j →
    (s.resHist.get ⟨i, hi⟩).1 = (s.resHist.get ⟨j, hj⟩).1 → i = j

/-! ## A concrete operation sequence that drives the single-producer
ring's `uint32_t` counters across their wrap boundary (used against C1
with `Q_SIZE = 3`, which does not divide `2 ^ 32`). -/

/-- `k` rounds of push-then-pop (each round pushes the value 0). -/
def pairOps : Nat → List (SPOp Nat)
  | 0 => []
  | k + 1 => SPOp.push 0 :: SPOp.pop :: pairOps k

/-- Almost `2 ^ 32` push/pop rounds, then pushes of 10 and 20 straddling
the counter wrap, pops, a push of 30 and a final pop. -/
def wrapOps : List (SPOp Nat) :=
  pairOps (U32 - 2)
    ++ [SPOp.push 10, SPOp.push 20, SPOp.pop, SPOp.pop, SPOp.push 30, SPOp.pop]

/-! # Theorems -/

/-! ## SafeQueue: TimedWaitPop on timeout (C5) -/

/-- C5: if TimedWaitPop returns failure then the queue was empty when the
predicate was last checked under the lock, and the call leaves both the
queue contents and the capacity unchanged. -/
theorem C5_timedWaitPop_timeout_unchanged (T : Type) (q : SafeQueue T)
    (h : (q.TimedWaitPop).1 = none) :
    q.m_theQueue = []
    ∧ (q.TimedWaitPop).2.1 = q
    ∧ (q.TimedWaitPop).2.1.m_theQueue = q.m_theQueue
    ∧ (q.TimedWaitPop).2.1.m_maximumSize = q.m_maximumSize := by
  cases hl : q.m_theQueue with
  | nil => simp [SafeQueue.TimedWaitPop, hl]
  | cons x rest => simp [SafeQueue.TimedWaitPop, hl] at h

/-- C5 witness: a concrete empty queue of capacity 5. -/
theorem C5_witness :
    (SafeQueue.mk ([] : List Nat) 5).m_theQueue = []
    ∧ ((SafeQueue.mk ([] : List Nat) 5).TimedWaitPop).2.1 = SafeQueue.mk [] 5
    ∧ ((SafeQueue.mk ([] : List Nat) 5).TimedWaitPop).2.1.m_theQueue
        = (SafeQueue.mk ([] : List Nat) 5).m_theQueue
    ∧ ((SafeQueue.mk ([] : List Nat) 5).TimedWaitPop).2.1.m_maximumSize
        = (SafeQueue.mk ([] : List Nat) 5).m_maximumSize :=
  C5_timedWaitPop_timeout_unchanged Nat (SafeQueue.mk [] 5) (by decide)

/-! ## SafeQueue: TryPush (C6) -/

/-- C6 refutation: with capacity 0 and an empty queue, TryPush fails yet
still executes `notify_all` (the notify in the source is guarded only by
the queue's prior emptiness, not by success), so a failed TryPush can
signal. -/
theorem C6_counterexample : ¬ ClaimC6 := by
  intro h
  have h3 := (h (SafeQueue.mk [] 0) 7).2.2
  have ht : ((SafeQueue.mk ([] : List Nat) 0).TryPush 7).2.2 = true := by decide
  exact absurd (h3.mp ht).2 (by decide)

/-- C6 amended: TryPush succeeds exactly when there is room, failure
leaves the queue unchanged, success appends the value, and `notify_all`
runs iff the queue was empty on entry — which coincides with "was empty
and the store succeeded" whenever the capacity is positive, so with a
positive capacity a failed TryPush never signals. -/
theorem C6_tryPush_characterisation (T : Type) (q : SafeQueue T) (v : T) :
    ((q.TryPush v).1 = true ↔ q.m_theQueue.length < q.m_maximumSize)
    ∧ ((q.TryPush v).1 = true →
        (q.TryPush v).2.1.m_theQueue = q.m_theQueue ++ [v]
        ∧ (q.TryPush v).2.1.m_maximumSize = q.m_maximumSize)
    ∧ ((q.TryPush v).1 = false → (q.TryPush v).2.1 = q)
    ∧ ((q.TryPush v).2.2 = true ↔ q.m_theQueue = [])
    ∧ (0 < q.m_maximumSize →
        ((q.TryPush v).2.2 = true ↔ (q.m_theQueue = [] ∧ (q.TryPush v).1 = true))) := by
  unfold SafeQueue.TryPush
  by_cases hroom : q.m_theQueue.length < q.m_maximumSize
  · simp only [if_pos hroom]
    refine ⟨by simp [hroom], by simp, by simp, by simp, ?_⟩
    intro _
    simp [List.isEmpty_iff]
  · simp only [if_neg hroom]
    refine ⟨by simp [hroom], by simp, by simp, by simp [List.isEmpty_iff], ?_⟩
    intro hcap
    simp only [List.isEmpty_iff]
    constructor
    · intro hnil
      exact absurd (by simp [hnil, hcap]) hroom
    · intro hfalse
      exact absurd hfalse.2 (by simp)

/-! ## SafeQueue: the size invariant (C7) -/

/-- C7: `len(items) ≤ capacity` holds after construction and is preserved
by Push (when it returns), TryPush, Pop, TryPop, TimedWaitPop and by copy
assignment from a source that satisfies it. -/
theorem C7_sizeInvariant_preserved :
    (∀ (T : Type) (cap : Nat), (SafeQueue.init T cap).sizeInvariant)
    ∧ (∀ (T : Type) (q : SafeQueue T) (v : T) (r : SafeQueue T × Bool),
        q.Push v = some r → r.1.sizeInvariant)
    ∧ (∀ (T : Type) (q : SafeQueue T) (v : T),
        q.sizeInvariant → ((q.TryPush v).2.1).sizeInvariant)
    ∧ (∀ (T : Type) (q : SafeQueue T) (r : T × SafeQueue T × Bool),
        q.sizeInvariant → q.Pop = some r → r.2.1.sizeInvariant)
    ∧ (∀ (T : Type) (q : SafeQueue T) (r : T × SafeQueue T × Bool),
        q.sizeInvariant → q.TryPop = some r → r.2.1.sizeInvariant)
    ∧ (∀ (T : Type) (q : SafeQueue T),
        q.sizeInvariant → ((q.TimedWaitPop).2.1).sizeInvariant)
    ∧ (∀ (T : Type) (q a_src : SafeQueue T),
        a_src.sizeInvariant → ((q.assignFrom a_src).1).sizeInvariant) := by
  refine ⟨?_, ?_, ?_, ?_, ?_, ?_, ?_⟩
  · intro T cap
    simp [SafeQueue.init, SafeQueue.sizeInvariant]
  · intro T q v r h
    unfold SafeQueue.Push at h
    by_cases hfull : q.m_theQueue.length ≥ q.m_maximumSize
    · simp [if_pos hfull] at h
    · simp only [if_neg hfull] at h
      cases h
      simp only [SafeQueue.sizeInvariant, List.length_append, List.length_singleton]
      omega
  · intro T q v hq
    unfold SafeQueue.TryPush
    by_cases hroom : q.m_theQueue.length < q.m_maximumSize
    · simp only [if_pos hroom, SafeQueue.sizeInvariant, List.length_append,
        List.length_singleton]
      omega
    · simpa [if_neg hroom] using hq
  · intro T q r hq h
    unfold SafeQueue.Pop at h
    cases hl : q.m_theQueue with
    | nil => simp [hl] at h
    | cons x rest =>
      simp only [hl] at h
      cases h
      simp only [SafeQueue.sizeInvariant] at *
      rw [hl] at hq
      simp at hq ⊢
      omega
  · intro T q r hq h
    unfold SafeQueue.TryPop at h
    cases hl : q.m_theQueue with
    | nil => simp [hl] at h
    | cons x rest =>
      simp only [hl] at h
      cases h
      simp only [SafeQueue.sizeInvariant] at *
      rw [hl] at hq
      simp at hq ⊢
      omega
  · intro T q hq
    unfold SafeQueue.TimedWaitPop
    by_cases hpos : q.m_theQueue.length > 0
    · cases hl : q.m_theQueue with
      | nil => simp [hl] at hpos
      | cons x rest =>
        simp only [if_pos hpos, hl]
        simp only [SafeQueue.sizeInvariant] at *
        rw [hl] at hq
        simp at hq ⊢
        omega
    · simpa [if_neg hpos] using hq
  · intro T q src hsrc
    simpa [SafeQueue.assignFrom, SafeQueue.sizeInvariant] using hsrc

/-! ## SafeQueue: copy assignment (C10) -/

/-- C10: copy assignment transfers the source's contents and capacity and
notifies the destination's condition variable iff the destination was
empty and the source non-empty, or the destination was full and the new
state (the source's) is not full. -/
theorem C10_assign_transfer_signal (T : Type) (q a_src : SafeQueue T) :
    (q.assignFrom a_src).1.m_theQueue = a_src.m_theQueue
    ∧ (q.assignFrom a_src).1.m_maximumSize = a_src.m_maximumSize
    ∧ ((q.assignFrom a_src).2 = true ↔
        ((q.m_theQueue = [] ∧ a_src.m_theQueue ≠ [])
         ∨ (q.m_theQueue.length ≥ q.m_maximumSize
            ∧ a_src.m_theQueue.length < a_src.m_maximumSize))) := by
  refine ⟨rfl, rfl, ?_⟩
  show (q.WakeUpSignalNeeded a_src) = true ↔ _
  by_cases hE : q.m_theQueue = []
    <;> by_cases hS : a_src.m_theQueue = []
    <;> by_cases hF : q.m_theQueue.length ≥ q.m_maximumSize
    <;> by_cases hL : a_src.m_theQueue.length < a_src.m_maximumSize
    <;> simp [SafeQueue.WakeUpSignalNeeded, List.isEmpty_iff, hE, hS, hF, hL]

/-! ## SafeQueue: sequential conservation (towards C1) -/

/-- Helper: one operation conserves values — entry contents plus this
operation's successful pushes equal this operation's successful pops plus
exit contents. -/
theorem SafeQueue.stepOp_conserves (q : SafeQueue T) (op : QOp T)
    (q1 : SafeQueue T) (ps1 os1 : List T)
    (h : q.stepOp op = some (q1, ps1, os1)) :
    q.m_theQueue ++ ps1 = os1 ++ q1.m_theQueue := by
  cases op with
  | push v =>
    simp only [SafeQueue.stepOp, SafeQueue.Push] at h
    by_cases hfull : q.m_theQueue.length ≥ q.m_maximumSize
    · simp [hfull] at h
    · simp only [if_neg hfull, Option.map_some'] at h
      cases h
      simp
  | tryPush v =>
    simp only [SafeQueue.stepOp, SafeQueue.TryPush] at h
    by_cases hroom : q.m_theQueue.length < q.m_maximumSize
    · simp only [if_pos hroom, Option.some.injEq] at h
      cases h
      simp
    · simp only [if_neg hroom, Option.some.injEq] at h
      cases h
      simp
  | pop =>
    simp only [SafeQueue.stepOp, SafeQueue.Pop] at h
    cases hl : q.m_theQueue with
    | nil => rw [hl] at h; simp at h
    | cons x rest =>
      rw [hl] at h
      simp only [Option.map_some', Option.some.injEq] at h
      cases h
      simp [hl]
  | tryPop =>
    simp only [SafeQueue.stepOp, SafeQueue.TryPop] at h
    cases hl : q.m_theQueue with
    | nil =>
      rw [hl] at h
      simp only [Option.some.injEq] at h
      cases h
      simp [hl]
    | cons x rest =>
      rw [hl] at h
      simp only [Option.some.injEq] at h
      cases h
      simp [hl]
  | timedWaitPop =>
    simp only [SafeQueue.stepOp, SafeQueue.TimedWaitPop] at h
    cases hl : q.m_theQueue with
    | nil =>
      rw [hl] at h
      simp only [List.length_nil, gt_iff_lt, Nat.lt_irrefl, if_false] at h
      simp only [Option.some.injEq] at h
      cases h
      simp [hl]
    | cons x rest =>
      rw [hl] at h
      simp only [List.length_cons, gt_iff_lt, Nat.succ_pos, if_true] at h
      simp only [Option.some.injEq] at h
      cases h
      simp [hl]

/-- Helper: a whole sequential run conserves values. -/
theorem SafeQueue.runOps_conserves :
    ∀ (ops : List (QOp T)) (q qf : SafeQueue T) (ps os : List T),
      q.runOps ops = some (qf, ps, os) →
      q.m_theQueue ++ ps = os ++ qf.m_theQueue := by
  intro ops
  induction ops with
  | nil =>
    intro q qf ps os h
    simp only [SafeQueue.runOps, Option.some.injEq] at h
    cases h
    simp
  | cons op rest ih =>
    intro q qf ps os h
    simp only [SafeQueue.runOps] at h
    cases hs : q.stepOp op with
    | none => rw [hs] at h; simp at h
    | some r =>
      rw [hs] at h
      obtain ⟨q1, ps1, os1⟩ := r
      dsimp only at h
      cases hr : q1.runOps rest with
      | none => rw [hr] at h; simp at h
      | some rr =>
        rw [hr] at h
        obtain ⟨qf2, ps2, os2⟩ := rr
        dsimp only at h
        simp only [Option.some.injEq] at h
        cases h
        have h1 := SafeQueue.stepOp_conserves q op q1 ps1 os1 hs
        have h2 := ih q1 qf ps2 os2 hr
        calc q.m_theQueue ++ (ps1 ++ ps2)
            = (q.m_theQueue ++ ps1) ++ ps2 := by rw [List.append_assoc]
          _ = (os1 ++ q1.m_theQueue) ++ ps2 := by rw [h1]
          _ = os1 ++ (q1.m_theQueue ++ ps2) := by rw [List.append_assoc]
          _ = os1 ++ (os2 ++ qf.m_theQueue) := by rw [h2]
          _ = (os1 ++ os2) ++ qf.m_theQueue := by rw [List.append_assoc]

/-! ## Single-producer ring: wrap-free sequential conservation (towards C1) -/

/-- Helper: counters whose distance is below `N` collide modulo `N` only
when they are equal. -/
theorem countToIndex_eq_iff (N a b : Nat) (hN : 0 < N) (hab : a ≤ b)
    (hw : b - a < N) : countToIndex N a = countToIndex N b ↔ a = b := by
  unfold countToIndex
  constructor
  · intro h
    have hd : N ∣ b - a := (Nat.modEq_iff_dvd' hab).mp h
    rcases Nat.eq_zero_or_pos (b - a) with h0 | h0
    · omega
    · exact absurd (Nat.le_of_dvd h0 hd) (by omega)
  · intro h
    rw [h]

/-- Helper: getD after set at the written index. -/
theorem getD_set_self (l : List T) (a : T) (n : Nat) (h : n < l.length) (d : T) :
    (l.set n a).getD n d = a := by
  rw [List.getD_eq_getElem?_getD]
  simp [List.getElem?_set_self, h]

/-- Helper: getD after set at another index. -/
theorem getD_set_ne (l : List T) (a : T) (n m : Nat) (h : n ≠ m) (d : T) :
    (l.set n a).getD m d = l.getD m d := by
  rw [List.getD_eq_getElem?_getD, List.getElem?_set_ne h, ← List.getD_eq_getElem?_getD]

/-- Helper: a successful store extends the abstract window on the right. -/
theorem absList_set_append [Inhabited T] (slots : List T) (w r : Nat) (v : T)
    (hN : 0 < slots.length) (hrw : r ≤ w) (hwin : w - r < slots.length) :
    (ArrayLockFreeQueueSingleProducer.mk
        (slots.set (countToIndex slots.length w) v) (w + 1) r).absList
      = (ArrayLockFreeQueueSingleProducer.mk slots w r).absList ++ [v] := by
  unfold ArrayLockFreeQueueSingleProducer.absList
  simp only [ArrayLockFreeQueueSingleProducer.qsize, List.length_set]
  rw [show w + 1 - r = (w - r) + 1 from by omega]
  rw [List.range_succ, List.map_append]
  congr 1
  · apply List.map_congr_left
    intro i hi
    have hi2 : i < w - r := List.mem_range.mp hi
    apply getD_set_ne
    intro heq
    have hexp : r + i = w :=
      (countToIndex_eq_iff slots.length (r + i) w hN (by omega) (by omega)).mp heq.symm
    omega
  · simp only [List.map_cons, List.map_nil]
    rw [show r + (w - r) = w from by omega]
    rw [getD_set_self _ _ _ (by unfold countToIndex; exact Nat.mod_lt _ hN)]

/-- Helper: a successful pop splits the abstract window at its head. -/
theorem absList_pop_cons [Inhabited T] (slots : List T) (w r : Nat)
    (hrw2 : r < w) :
    (ArrayLockFreeQueueSingleProducer.mk slots w r).absList
      = slots.getD (countToIndex slots.length r) default
        :: (ArrayLockFreeQueueSingleProducer.mk slots w (r + 1)).absList := by
  unfold ArrayLockFreeQueueSingleProducer.absList
  simp only [ArrayLockFreeQueueSingleProducer.qsize]
  rw [show w - r = (w - (r + 1)) + 1 from by omega]
  rw [List.range_succ_eq_map, List.map_cons, List.map_map]
  congr 1
  apply List.map_congr_left
  intro i hi
  simp only [Function.comp_apply, Nat.succ_eq_add_one]
  rw [show r + (i + 1) = r + 1 + i from by omega]

/-- Helper: a wrap-free sequential run on the single-producer ring
conserves values: entry window plus successful pushes equals successful
pops plus exit window. -/
theorem ArrayLockFreeQueueSingleProducer.runOps_conserves_sp [Inhabited T] :
    ∀ (ops : List (SPOp T)) (q : ArrayLockFreeQueueSingleProducer T),
      0 < q.qsize → q.m_readIndex ≤ q.m_writeIndex →
      q.m_writeIndex - q.m_readIndex < q.qsize →
      q.m_writeIndex + ops.length < U32 →
      q.absList ++ (q.runOps ops).2.1
        = (q.runOps ops).2.2 ++ ((q.runOps ops).1).absList := by
  intro ops
  induction ops with
  | nil =>
    intro q hN hrw hwin hU
    simp [ArrayLockFreeQueueSingleProducer.runOps]
  | cons op rest ih =>
    intro q hN hrw hwin hU
    obtain ⟨slots, w, r⟩ := q
    simp only [ArrayLockFreeQueueSingleProducer.qsize] at hN hwin
    simp only [List.length_cons] at hU
    dsimp only at hN hrw hwin hU
    cases op with
    | push v =>
      have hw1 : w + 1 < U32 := by omega
      by_cases hg : countToIndex slots.length ((w + 1) % U32)
          = countToIndex slots.length r
      · simp only [ArrayLockFreeQueueSingleProducer.runOps,
          ArrayLockFreeQueueSingleProducer.push,
          ArrayLockFreeQueueSingleProducer.qsize]
        rw [if_pos hg]
        dsimp only
        have ihq := ih (ArrayLockFreeQueueSingleProducer.mk slots w r)
          hN hrw hwin (by dsimp only; omega)
        simpa using ihq
      · have hmod : (w + 1) % U32 = w + 1 := Nat.mod_eq_of_lt hw1
        have hg2 : ¬ countToIndex slots.length (w + 1)
            = countToIndex slots.length r := by
          rw [← hmod]; exact hg
        have hwin1 : w + 1 - r < slots.length := by
          by_contra hcon
          apply hg2
          have hEq : w + 1 = slots.length + r := by omega
          unfold countToIndex
          rw [hEq, Nat.add_mod_left]
        simp only [ArrayLockFreeQueueSingleProducer.runOps,
          ArrayLockFreeQueueSingleProducer.push,
          ArrayLockFreeQueueSingleProducer.qsize]
        rw [if_neg hg]
        dsimp only
        rw [hmod]
        have habs := absList_set_append slots w r v hN hrw hwin
        have ihq := ih (ArrayLockFreeQueueSingleProducer.mk
            (slots.set (countToIndex slots.length w) v) (w + 1) r)
          (by simpa [ArrayLockFreeQueueSingleProducer.qsize] using hN)
          (by exact Nat.le_succ_of_le hrw)
          (by simpa [ArrayLockFreeQueueSingleProducer.qsize] using hwin1)
          (by dsimp only; omega)
        rw [if_pos rfl, ← List.append_assoc, ← habs]
        exact ihq
    | pop =>
      by_cases hg : countToIndex slots.length r = countToIndex slots.length w
      · simp only [ArrayLockFreeQueueSingleProducer.runOps,
          ArrayLockFreeQueueSingleProducer.pop,
          ArrayLockFreeQueueSingleProducer.qsize]
        rw [if_pos hg]
        exact ih (ArrayLockFreeQueueSingleProducer.mk slots w r) hN hrw hwin
          (by dsimp only; omega)
      · have hrw2 : r < w := by
          rcases Nat.lt_or_ge r w with h | h
          · exact h
          · exact absurd (by rw [le_antisymm hrw h]) hg
        have hr1 : (r + 1) % U32 = r + 1 := Nat.mod_eq_of_lt (by omega)
        simp only [ArrayLockFreeQueueSingleProducer.runOps,
          ArrayLockFreeQueueSingleProducer.pop,
          ArrayLockFreeQueueSingleProducer.qsize]
        rw [if_neg hg]
        dsimp only
        rw [hr1]
        have habs := absList_pop_cons slots w r hrw2
        have ihq := ih (ArrayLockFreeQueueSingleProducer.mk slots w (r + 1))
          hN (by dsimp only; omega)
          (by simp only [ArrayLockFreeQueueSingleProducer.qsize]; omega)
          (by dsimp only; omega)
        rw [habs]
        simp only [List.cons_append]
        rw [ihq]

/-- Helper: a list of the form `os ++ t` has `os` as its prefix of length
`os.length`. -/
theorem take_eq_of_append (os t ps : List T) (h : ps = os ++ t) :
    os = ps.take os.length := by
  subst h
  rw [List.take_left]

/-- C1 (amended): on a SafeQueue this holds for every operation sequence;
on the single-producer ring it holds for every operation sequence of
fewer than `2 ^ 32` operations (before the `uint32_t` counters can wrap):
the successfully popped values are exactly the successfully pushed values
in push order, one push per pop. -/
theorem C1_fifo_amended :
    (∀ (T : Type) (cap : Nat) (ops : List (QOp T)) (qf : SafeQueue T) (ps os : List T),
        (SafeQueue.init T cap).runOps ops = some (qf, ps, os) →
        os = ps.take os.length)
    ∧ (∀ (T : Type) [Inhabited T] (slots : List T) (ops : List (SPOp T)),
        slots ≠ [] → ops.length < U32 →
        ((ArrayLockFreeQueueSingleProducer.mkFresh slots).runOps ops).2.2
          = (((ArrayLockFreeQueueSingleProducer.mkFresh slots).runOps ops).2.1).take
              (((ArrayLockFreeQueueSingleProducer.mkFresh slots).runOps ops).2.2).length) := by
  constructor
  · intro T cap ops qf ps os h
    have hcons := SafeQueue.runOps_conserves ops (SafeQueue.init T cap) qf ps os h
    simp only [SafeQueue.init, List.nil_append] at hcons
    exact take_eq_of_append os qf.m_theQueue ps hcons
  · intro T _ slots ops hne hlen
    have hpos : 0 < slots.length := List.length_pos.mpr hne
    have hcons := ArrayLockFreeQueueSingleProducer.runOps_conserves_sp ops
      (ArrayLockFreeQueueSingleProducer.mkFresh slots)
      (by simpa [ArrayLockFreeQueueSingleProducer.mkFresh,
            ArrayLockFreeQueueSingleProducer.qsize] using hpos)
      (by simp [ArrayLockFreeQueueSingleProducer.mkFresh])
      (by simpa [ArrayLockFreeQueueSingleProducer.mkFresh,
            ArrayLockFreeQueueSingleProducer.qsize] using hpos)
      (by simpa [ArrayLockFreeQueueSingleProducer.mkFresh] using hlen)
    have habs : (ArrayLockFreeQueueSingleProducer.mkFresh slots).absList = [] := by
      simp [ArrayLockFreeQueueSingleProducer.absList,
        ArrayLockFreeQueueSingleProducer.mkFresh]
    rw [habs, List.nil_append] at hcons
    exact take_eq_of_append _ _ _ hcons

/-- Helper: a sequential ring run splits over list concatenation. -/
theorem ArrayLockFreeQueueSingleProducer.runOps_append [Inhabited T]
    (l1 l2 : List (SPOp T)) :
    ∀ (q : ArrayLockFreeQueueSingleProducer T),
      (q.runOps (l1 ++ l2)).1 = (((q.runOps l1).1).runOps l2).1
      ∧ (q.runOps (l1 ++ l2)).2.1
          = (q.runOps l1).2.1 ++ (((q.runOps l1).1).runOps l2).2.1
      ∧ (q.runOps (l1 ++ l2)).2.2
          = (q.runOps l1).2.2 ++ (((q.runOps l1).1).runOps l2).2.2 := by
  induction l1 with
  | nil =>
    intro q
    simp [ArrayLockFreeQueueSingleProducer.runOps]
  | cons op rest ih =>
    intro q
    cases op with
    | push v =>
      obtain ⟨ih1, ih2, ih3⟩ := ih (q.push v).2
      refine ⟨?_, ?_, ?_⟩ <;>
        simp [ArrayLockFreeQueueSingleProducer.runOps, ih1, ih2, ih3,
          List.append_assoc]
    | pop =>
      cases hp : q.pop with
      | none =>
        have := ih q
        simp only [List.cons_append, ArrayLockFreeQueueSingleProducer.runOps, hp]
        exact this
      | some rr =>
        obtain ⟨x, q1⟩ := rr
        obtain ⟨ih1, ih2, ih3⟩ := ih q1
        refine ⟨?_, ?_, ?_⟩ <;>
          simp [ArrayLockFreeQueueSingleProducer.runOps, hp, ih1, ih2, ih3]

/-- Helper: the zero-filled 3-slot array absorbs any store of 0. -/
theorem set_zero_list (c : Nat) :
    (([0, 0, 0] : List Nat).set (countToIndex 3 c) 0) = [0, 0, 0] := by
  have h3 : c % 3 = 0 ∨ c % 3 = 1 ∨ c % 3 = 2 := by omega
  unfold countToIndex
  rcases h3 with h | h | h <;> rw [h] <;> rfl

/-- Helper: any cell of the zero-filled 3-slot array reads 0. -/
theorem getD_zero_list (c : Nat) :
    (([0, 0, 0] : List Nat).getD (countToIndex 3 c) default) = 0 := by
  have h3 : c % 3 = 0 ∨ c % 3 = 1 ∨ c % 3 = 2 := by omega
  unfold countToIndex
  rcases h3 with h | h | h <;> rw [h] <;> rfl

/-- Helper: consecutive counters never collide modulo 3. -/
theorem mod3_succ_ne (c : Nat) : ¬ countToIndex 3 (c + 1) = countToIndex 3 c := by
  intro heq
  have := (countToIndex_eq_iff 3 c (c + 1) (by omega) (by omega) (by omega)).mp heq.symm
  omega

/-- Helper: one push of 0 below the wrap succeeds and leaves the zero
array unchanged. -/
theorem push_zero_round (c : Nat) (h : c + 1 < U32) :
    (ArrayLockFreeQueueSingleProducer.mk ([0, 0, 0] : List Nat) c c).push 0
      = (true, ArrayLockFreeQueueSingleProducer.mk [0, 0, 0] (c + 1) c) := by
  have hc1 : (c + 1) % U32 = c + 1 := Nat.mod_eq_of_lt h
  unfold ArrayLockFreeQueueSingleProducer.push
  rw [if_neg]
  · simp only [ArrayLockFreeQueueSingleProducer.qsize]
    rw [hc1, show ([0, 0, 0] : List Nat).length = 3 from rfl, set_zero_list]
  · simp only [ArrayLockFreeQueueSingleProducer.qsize]
    rw [hc1, show ([0, 0, 0] : List Nat).length = 3 from rfl]
    exact mod3_succ_ne c

/-- Helper: one pop below the wrap returns the stored 0. -/
theorem pop_zero_round (c : Nat) (h : c + 1 < U32) :
    (ArrayLockFreeQueueSingleProducer.mk ([0, 0, 0] : List Nat) (c + 1) c).pop
      = some (0, ArrayLockFreeQueueSingleProducer.mk [0, 0, 0] (c + 1) (c + 1)) := by
  have hc1 : (c + 1) % U32 = c + 1 := Nat.mod_eq_of_lt h
  unfold ArrayLockFreeQueueSingleProducer.pop
  rw [if_neg]
  · simp only [ArrayLockFreeQueueSingleProducer.qsize]
    rw [hc1, show ([0, 0, 0] : List Nat).length = 3 from rfl, getD_zero_list]
  · simp only [ArrayLockFreeQueueSingleProducer.qsize]
    rw [show ([0, 0, 0] : List Nat).length = 3 from rfl]
    intro heq
    exact mod3_succ_ne c heq.symm

/-- Helper: `k` push/pop rounds on the 3-slot zero ring advance both
counters from `c` to `c + k` and push and pop `k` zeroes, while the
counters stay below the wrap. -/
theorem runOps_pairOps :
    ∀ (k c : Nat), c + k < U32 →
      (ArrayLockFreeQueueSingleProducer.mk ([0, 0, 0] : List Nat) c c).runOps (pairOps k)
        = (ArrayLockFreeQueueSingleProducer.mk [0, 0, 0] (c + k) (c + k),
           List.replicate k 0, List.replicate k 0) := by
  intro k
  induction k with
  | zero =>
    intro c h
    simp [pairOps, ArrayLockFreeQueueSingleProducer.runOps]
  | succ k ih =>
    intro c h
    have hp1 := push_zero_round c (by omega)
    have hp2 := pop_zero_round c (by omega)
    have hrec := ih (c + 1) (by omega)
    show (ArrayLockFreeQueueSingleProducer.mk ([0, 0, 0] : List Nat) c c).runOps
        (SPOp.push 0 :: SPOp.pop :: pairOps k) = _
    simp only [ArrayLockFreeQueueSingleProducer.runOps, hp1, hp2, hrec]
    simp only [if_true]
    refine congrArg₂ Prod.mk ?_ (congrArg₂ Prod.mk ?_ ?_)
    · rw [show c + 1 + k = c + (k + 1) from by omega]
    · simp [List.replicate_succ]
    · simp [List.replicate_succ]

/-- Helper: the six operations after the wrap, evaluated concretely from
write = read = `2 ^ 32 − 2`: push 10 succeeds (slot 2), push 20 succeeds
(slot 0, the write counter wraps to 0), one pop returns 10, the next pop
reports empty although 20 is stored (`index(read) = index(write)` after
the wrap), push 30 then overwrites the never-popped 20, and the last pop
returns 30. -/
theorem runOps_wrap_tail :
    (ArrayLockFreeQueueSingleProducer.mk ([0, 0, 0] : List Nat)
        (U32 - 2) (U32 - 2)).runOps
      [SPOp.push 10, SPOp.push 20, SPOp.pop, SPOp.pop, SPOp.push 30, SPOp.pop]
      = (ArrayLockFreeQueueSingleProducer.mk [30, 0, 10] 1 0,
         [10, 20, 30], [10, 30]) := by
  decide

/-- C1 refutation: with `Q_SIZE = 3` (which does not divide `2 ^ 32`) the
`uint32_t` counter wrap breaks FIFO on the single-producer ring: after
`2 ^ 32 − 2` push/pop rounds, values 10 and 20 are pushed, but the pop
after 10 hits a spurious empty, the push of 30 overwrites the
never-popped 20, and the popped sequence ends 10, 30 while the pushed
sequence ends 10, 20, 30. -/
theorem C1_counterexample : ¬ ClaimC1 := by
  intro hclaim
  have h2 := hclaim.2 [0, 0, 0] wrapOps (by decide)
  have hpair := runOps_pairOps (U32 - 2) 0 (by decide)
  simp only [Nat.zero_add] at hpair
  have happ := ArrayLockFreeQueueSingleProducer.runOps_append
    (pairOps (U32 - 2))
    [SPOp.push 10, SPOp.push 20, SPOp.pop, SPOp.pop, SPOp.push 30, SPOp.pop]
    (ArrayLockFreeQueueSingleProducer.mkFresh [0, 0, 0])
  obtain ⟨ha1, ha2, ha3⟩ := happ
  simp only [ArrayLockFreeQueueSingleProducer.mkFresh] at ha2 ha3
  rw [hpair] at ha2 ha3
  dsimp only at ha2 ha3
  rw [runOps_wrap_tail] at ha2 ha3
  dsimp only at ha2 ha3
  unfold wrapOps at h2
  simp only [ArrayLockFreeQueueSingleProducer.mkFresh] at h2
  rw [ha2, ha3] at h2
  have hlenA : (List.replicate (U32 - 2) (0 : Nat)).length = U32 - 2 :=
    List.length_replicate _ _
  have hlen : ((List.replicate (U32 - 2) (0 : Nat)) ++ [10, 30]).length
      = (U32 - 2) + 2 := by
    rw [List.length_append, hlenA]
    rfl
  rw [hlen, List.take_append_eq_append_take, hlenA,
    List.take_of_length_le (by omega),
    show (U32 - 2) + 2 - (U32 - 2) = 2 from by omega] at h2
  have h20 := List.append_cancel_left h2
  simp at h20

/-! ## Lock-free ring: size() (C4) -/

/-- C4 refutation: the pthread-era size() branches on the raw counters,
not on their indexes; in the state write = 4, read = 3 with N = 4 (the
state after four pushes and three pops) it returns 1, while the claimed
index-compared form returns N + write − read = 5. -/
theorem C4_counterexample : ¬ ClaimC4 := by
  intro h
  exact absurd (h (ArrayLockFreeQueueSingleProducer.mk [0, 0, 0, 0] 4 3)).2 (by decide)

/-- C4 (amended): the C++11 variant's size() computes exactly the claimed
index-compared wraparound form in every state; the pthread-era variant
compares the raw counters instead, and agrees with the claimed form
exactly in the states where the two comparisons coincide. -/
theorem C4_size_forms (T : Type) (q : ArrayLockFreeQueueSingleProducer T) :
    q.size_cpp11 = q.sizeSpecForm
    ∧ ((q.m_writeIndex ≥ q.m_readIndex ↔
          countToIndex q.qsize q.m_writeIndex ≥ countToIndex q.qsize q.m_readIndex) →
        q.size_pthread = q.sizeSpecForm) := by
  constructor
  · rfl
  · intro hiff
    unfold ArrayLockFreeQueueSingleProducer.size_pthread
      ArrayLockFreeQueueSingleProducer.sizeSpecForm
    by_cases hb : countToIndex q.qsize q.m_writeIndex
        ≥ countToIndex q.qsize q.m_readIndex
    · rw [if_pos (hiff.mpr hb), if_pos hb]
    · rw [if_neg (fun hc => hb (hiff.mp hc)), if_neg hb]

/-! ## Lock-free ring: effective capacity N − 1 (C2) -/

/-- C2 helper, single producer: from write = k, read = 0 with k < N, a
burst of N − k pushes yields N − 1 − k successes and then one failure. -/
theorem pushAll_from_sp :
    ∀ (vs : List T) (k : Nat) (slots : List T),
      0 < slots.length → slots.length < U32 → k < slots.length →
      vs.length = slots.length - k →
      ((ArrayLockFreeQueueSingleProducer.mk slots k 0).pushAll vs).1
        = List.replicate (slots.length - 1 - k) true ++ [false] := by
  intro vs
  induction vs with
  | nil =>
    intro k slots hN hU hk hlen
    simp at hlen
    omega
  | cons v vs ih =>
    intro k slots hN hU hk hlen
    simp only [List.length_cons] at hlen
    have hmod : (k + 1) % U32 = k + 1 := Nat.mod_eq_of_lt (by omega)
    by_cases hfull : k + 1 = slots.length
    · have hguard : countToIndex slots.length ((k + 1) % U32)
          = countToIndex slots.length 0 := by
        unfold countToIndex
        rw [hmod, hfull, Nat.mod_self, Nat.zero_mod]
      have hvs : vs = [] := by
        have : vs.length = 0 := by omega
        exact List.length_eq_zero.mp this
      subst hvs
      simp only [ArrayLockFreeQueueSingleProducer.pushAll,
        ArrayLockFreeQueueSingleProducer.push,
        ArrayLockFreeQueueSingleProducer.qsize]
      rw [if_pos hguard]
      have : slots.length - 1 - k = 0 := by omega
      rw [this]
      rfl
    · have hguard : ¬ countToIndex slots.length ((k + 1) % U32)
          = countToIndex slots.length 0 := by
        unfold countToIndex
        rw [hmod, Nat.zero_mod, Nat.mod_eq_of_lt (by omega)]
        omega
      simp only [ArrayLockFreeQueueSingleProducer.pushAll,
        ArrayLockFreeQueueSingleProducer.push,
        ArrayLockFreeQueueSingleProducer.qsize]
      rw [if_neg hguard]
      dsimp only
      rw [hmod]
      have ihr := ih (k + 1)
        (slots.set (countToIndex slots.length k) v)
        (by simpa using hN) (by simpa using hU) (by simpa using by omega)
        (by simp; omega)
      simp only [List.length_set] at ihr
      rw [ihr]
      rw [show slots.length - 1 - k = (slots.length - 1 - (k + 1)) + 1 from by omega]
      rw [List.replicate_succ, List.cons_append]

/-- C2 helper, multiple producers, single-threaded: the same burst
behaviour, with the commit index tracking the write index. -/
theorem pushAll_from_mp :
    ∀ (vs : List T) (k : Nat) (slots : List T),
      0 < slots.length → slots.length < U32 → k < slots.length →
      vs.length = slots.length - k →
      ((ArrayLockFreeQueue.mk slots k 0 k).pushAll vs).map Prod.fst
        = some (List.replicate (slots.length - 1 - k) true ++ [false]) := by
  intro vs
  induction vs with
  | nil =>
    intro k slots hN hU hk hlen
    simp at hlen
    omega
  | cons v vs ih =>
    intro k slots hN hU hk hlen
    simp only [List.length_cons] at hlen
    have hmod : (k + 1) % U32 = k + 1 := Nat.mod_eq_of_lt (by omega)
    by_cases hfull : k + 1 = slots.length
    · have hguard : countToIndex slots.length ((k + 1) % U32)
          = countToIndex slots.length 0 := by
        unfold countToIndex
        rw [hmod, hfull, Nat.mod_self, Nat.zero_mod]
      have hvs : vs = [] := by
        have : vs.length = 0 := by omega
        exact List.length_eq_zero.mp this
      subst hvs
      simp only [ArrayLockFreeQueue.pushAll, ArrayLockFreeQueue.push,
        ArrayLockFreeQueue.qsize]
      rw [if_pos hguard]
      have : slots.length - 1 - k = 0 := by omega
      rw [this]
      rfl
    · have hguard : ¬ countToIndex slots.length ((k + 1) % U32)
          = countToIndex slots.length 0 := by
        unfold countToIndex
        rw [hmod, Nat.zero_mod, Nat.mod_eq_of_lt (by omega)]
        omega
      simp only [ArrayLockFreeQueue.pushAll, ArrayLockFreeQueue.push,
        ArrayLockFreeQueue.qsize]
      rw [if_neg hguard]
      simp only [if_true]
      rw [hmod]
      have ihr := ih (k + 1)
        (slots.set (countToIndex slots.length k) v)
        (by simpa using hN) (by simpa using hU) (by simpa using by omega)
        (by simp; omega)
      cases hrec : ((ArrayLockFreeQueue.mk
          (slots.set (countToIndex slots.length k) v) (k + 1) 0 (k + 1)).pushAll vs) with
      | none => rw [hrec] at ihr; simp at ihr
      | some rr =>
        rw [hrec] at ihr
        simp only [Option.map_some', Option.some.injEq] at ihr
        dsimp only
        simp only [Option.map_some', Option.some.injEq]
        simp only [List.length_set] at ihr
        rw [show List.replicate (slots.length - 1 - k) true
            = true :: List.replicate (slots.length - 1 - (k + 1)) true from by
          rw [show slots.length - 1 - k = (slots.length - 1 - (k + 1)) + 1 from by
            omega]
          rfl]
        simp [ihr]

/-- C2: on a freshly constructed ring of array size N (both the
single-producer ring and the multiple-producer ring, whose push uses the
same fullness condition `index(write + 1) = index(read)`), the first
N − 1 pushes succeed, the N-th push fails, and a pop fails. -/
theorem C2_fresh_capacity :
    (∀ (T : Type) (slots vs : List T), 0 < slots.length → slots.length < U32 →
        vs.length = slots.length →
        ((ArrayLockFreeQueueSingleProducer.mkFresh slots).pushAll vs).1
          = List.replicate (slots.length - 1) true ++ [false])
    ∧ (∀ (T : Type) [Inhabited T] (slots : List T),
        (ArrayLockFreeQueueSingleProducer.mkFresh slots).pop = none)
    ∧ (∀ (T : Type) (slots vs : List T), 0 < slots.length → slots.length < U32 →
        vs.length = slots.length →
        ((ArrayLockFreeQueue.mkFresh slots).pushAll vs).map Prod.fst
          = some (List.replicate (slots.length - 1) true ++ [false]))
    ∧ (∀ (T : Type) [Inhabited T] (slots : List T),
        (ArrayLockFreeQueue.mkFresh slots).pop = none) := by
  refine ⟨?_, ?_, ?_, ?_⟩
  · intro T slots vs hN hU hlen
    have := pushAll_from_sp vs 0 slots hN hU hN (by omega)
    simpa [ArrayLockFreeQueueSingleProducer.mkFresh] using this
  · intro T _ slots
    simp [ArrayLockFreeQueueSingleProducer.pop,
      ArrayLockFreeQueueSingleProducer.mkFresh]
  · intro T slots vs hN hU hlen
    have := pushAll_from_mp vs 0 slots hN hU hN (by omega)
    simpa [ArrayLockFreeQueue.mkFresh] using this
  · intro T _ slots
    simp [ArrayLockFreeQueue.pop, ArrayLockFreeQueue.mkFresh]

/-! ## ConsumerThread: handler discipline (C8) -/

/-- Helper: the worker loop never invokes the init delegate, and every
consume invocation carries a value delivered by a successful timed pop
observed in an iteration whose stop-flag read was false. -/
theorem ConsumerThread.loopEvents_facts :
    ∀ (sched : List (Bool × Option T)),
      ((ConsumerThread.loopEvents sched).countP (fun e => e.isInit) = 0)
      ∧ (∀ v : T, CTEvent.consume v ∈ ConsumerThread.loopEvents sched →
          (false, some v) ∈ sched) := by
  intro sched
  induction sched with
  | nil => simp [ConsumerThread.loopEvents]
  | cons p rest ih =>
    obtain ⟨b, r⟩ := p
    obtain ⟨ih1, ih2⟩ := ih
    cases b with
    | true => simp [ConsumerThread.loopEvents]
    | false =>
      cases r with
      | none =>
        refine ⟨by simpa [ConsumerThread.loopEvents] using ih1, ?_⟩
        intro v hv
        simp only [ConsumerThread.loopEvents] at hv
        exact List.mem_cons_of_mem _ (ih2 v hv)
      | some x =>
        constructor
        · simpa [ConsumerThread.loopEvents, CTEvent.isInit] using ih1
        · intro v hv
          simp only [ConsumerThread.loopEvents, List.mem_cons] at hv
          rcases hv with hv | hv
          · cases hv
            exact List.mem_cons_self _ _
          · exact List.mem_cons_of_mem _ (ih2 v hv)

/-- C8: in every run of the worker routine, the init delegate is invoked
exactly once, as the very first event, before any consume; and every
consume invocation receives a value obtained from a successful timed pop
(observed with the stop flag still false). -/
theorem C8_threadRoutine_handlers (T : Type) (sched : List (Bool × Option T)) :
    (ConsumerThread.ThreadRoutine sched).countP (fun e => e.isInit) = 1
    ∧ (ConsumerThread.ThreadRoutine sched).head? = some CTEvent.init
    ∧ (∀ (i : Nat) (v : T),
        (ConsumerThread.ThreadRoutine sched)[i]? = some (CTEvent.consume v) → 0 < i)
    ∧ (∀ v : T, CTEvent.consume v ∈ ConsumerThread.ThreadRoutine sched →
        (false, some v) ∈ sched) := by
  obtain ⟨h1, h2⟩ := ConsumerThread.loopEvents_facts sched
  refine ⟨?_, rfl, ?_, ?_⟩
  · show (CTEvent.init :: ConsumerThread.loopEvents sched).countP _ = 1
    rw [List.countP_cons, h1]
    rfl
  · intro i v h
    cases i with
    | zero => simp [ConsumerThread.ThreadRoutine] at h
    | succ n => omega
  · intro v hv
    simp only [ConsumerThread.ThreadRoutine, List.mem_cons] at hv
    rcases hv with hv | hv
    · cases hv
    · exact h2 v hv

/-! ## ConsumerThread: Join (C9) -/

/-- C9 refutation: Join resets the thread handle, and a second direct
call to Join then dereferences the cleared `unique_ptr` — in the model it
faults (`none`) instead of being a no-op. -/
theorem C9_counterexample : ¬ ClaimC9 := by
  intro h
  exact absurd (h (CTState.mk false (some ())) (CTState.mk true none) (by decide))
    (by decide)

/-- C9 (amended): Join on a live handle sets the stop flag, joins the
worker and clears the handle; a second direct Join on the cleared handle
faults (null dereference, modelled `none`); the destructor's guarded call
on a cleared handle is the actual no-op. -/
theorem C9_join_clears_handle (s : CTState) :
    (s.m_producerThread.isSome = true → s.Join = some (CTState.mk true none))
    ∧ (s.m_producerThread = none → s.Join = none)
    ∧ (s.m_producerThread = none → s.destructor = some s) := by
  obtain ⟨t, h⟩ := s
  cases h with
  | none => simp [CTState.Join, CTState.destructor]
  | some u => simp [CTState.Join, CTState.destructor]

/-! ## Multiple-producer interleaving system: commit order (C3) -/

/-- Helper: an idle producer holds no pending reservation. -/
theorem holdsPending_idle (cur : Nat) : ¬ (PPC.idle : PPC T).holdsPending cur := by
  simp [PPC.holdsPending]

/-- Helper: a producer in the reserved phase holds exactly its reserved
counter. -/
theorem holdsPending_reserved (c cur : Nat) (v : T) :
    (PPC.reserved c v).holdsPending cur ↔ cur = c := by
  simp [PPC.holdsPending, eq_comm]

/-- Helper: a producer in the committed-write phase holds exactly its
reserved counter. -/
theorem holdsPending_wroteData (c cur : Nat) (v : T) :
    (PPC.wroteData c v).holdsPending cur ↔ cur = c := by
  simp [PPC.holdsPending, eq_comm]

/-- Helper: the commit history never outruns the reservation history. -/
theorem MPInv.k_le_len {s : MPSys T} (hinv : MPInv s) :
    s.commitHist.length ≤ s.resHist.length := by
  have h := congrArg List.length hinv.commitPrefix
  simp only [List.length_take] at h
  omega

/-- Helper: at most `nProds` reservations are pending, because pending
positions name pairwise-distinct producers. -/
theorem MPInv.window_le {s : MPSys T} (hinv : MPInv s) :
    s.resHist.length - s.commitHist.length ≤ s.nProds := by
  have hcard : (Finset.Ico s.commitHist.length s.resHist.length).card
      ≤ (Finset.range s.nProds).card := by
    apply Finset.card_le_card_of_injOn
      (fun i => if h : i < s.resHist.length then (s.resHist.get ⟨i, h⟩).1 else 0)
    · intro i hi
      simp only [Finset.mem_Ico] at hi
      rw [dif_pos hi.2]
      simp only [Finset.mem_range]
      exact hinv.pidRange i hi.2
    · intro i hi j hj hij
      simp only [Finset.coe_Ico, Set.mem_Ico] at hi hj
      simp only [dif_pos hi.2, dif_pos hj.2] at hij
      exact hinv.pendingDistinct i j hi.2 hj.2 hi.1 hj.1 hij
  simpa [Nat.card_Ico] using hcard

/-- Helper: the pending producer holding the commit-ready counter sits at
exactly position `commitHist.length` of the reservation history. -/
theorem MPInv.pending_at_k {s : MPSys T} (hinv : MPInv s) (p cur : Nat)
    (hpend : PPC.holdsPending (s.prods p) cur)
    (hcur : cur = s.commitHist.length % U32) :
    ∃ h : s.commitHist.length < s.resHist.length,
      s.resHist.get ⟨s.commitHist.length, h⟩ = (p, cur) := by
  obtain ⟨i, hi, hki, hget⟩ := hinv.pendingOf p cur hpend
  have hseq := hinv.resSeq i hi
  rw [hget] at hseq
  have hwin := hinv.window_le
  have hP := hinv.nProdsLt
  have hmod : i % U32 = s.commitHist.length % U32 := by rw [← hseq, hcur]
  have hdvd : U32 ∣ i - s.commitHist.length :=
    (Nat.modEq_iff_dvd' hki).mp hmod.symm
  have hik : i = s.commitHist.length := by
    rcases Nat.eq_zero_or_pos (i - s.commitHist.length) with h0 | h0
    · omega
    · have := Nat.le_of_dvd h0 hdvd
      omega
  subst hik
  exact ⟨hi, hget⟩

/-- Helper: get on an appended list, left part. -/
theorem get_append_left_of_lt (l1 l2 : List α) (i : Nat) (h : i < l1.length)
    (h2 : i < (l1 ++ l2).length) :
    (l1 ++ l2).get ⟨i, h2⟩ = l1.get ⟨i, h⟩ := by
  simp [List.get_eq_getElem, List.getElem_append_left h]

/-- Helper: get of the appended singleton. -/
theorem get_concat_self (l : List α) (a : α) (h : l.length < (l ++ [a]).length) :
    (l ++ [a]).get ⟨l.length, h⟩ = a := by
  simp [List.get_eq_getElem]

/-- Helper: each step of the multiple-producer protocol preserves the
invariant. -/
theorem MPStep_preserves (s s2 : MPSys T) (hstep : MPStep s s2)
    (hinv : MPInv s) : MPInv s2 := by
  cases hstep with
  | reserve p v hp hidle =>
    refine ⟨hinv.nProdsLt, ?_, hinv.maxReadCount, ?_, ?_, ?_, ?_, ?_, ?_⟩
    · dsimp only
      rw [hinv.writeCount, Nat.mod_add_mod]
      simp
    · dsimp only
      intro i h
      simp only [List.length_append, List.length_singleton] at h
      by_cases hiL : i < s.resHist.length
      · rw [get_append_left_of_lt _ _ _ hiL]
        exact hinv.resSeq i hiL
      · have hieq : i = s.resHist.length := by omega
        subst hieq
        rw [get_concat_self]
        exact hinv.writeCount
    · dsimp only
      rw [List.take_append_of_le_length hinv.k_le_len]
      exact hinv.commitPrefix
    · dsimp only
      intro i h hk
      simp only [List.length_append, List.length_singleton] at h
      by_cases hiL : i < s.resHist.length
      · rw [get_append_left_of_lt _ _ _ hiL]
        have hold := hinv.pendingHolds i hiL hk
        have hne : (s.resHist.get ⟨i, hiL⟩).1 ≠ p := by
          intro heq
          rw [heq, hidle] at hold
          exact holdsPending_idle _ hold
        rw [Function.update_noteq hne]
        exact hold
      · have hieq : i = s.resHist.length := by omega
        subst hieq
        rw [get_concat_self]
        dsimp only
        rw [Function.update_same]
        exact (holdsPending_reserved _ _ _).mpr rfl
    · dsimp only
      intro q cur hq
      by_cases hqp : q = p
      · subst hqp
        rw [Function.update_same, holdsPending_reserved] at hq
        subst hq
        refine ⟨s.resHist.length, by simp, hinv.k_le_len, ?_⟩
        rw [get_concat_self]
      · rw [Function.update_noteq hqp] at hq
        obtain ⟨i, hi, hk, hget⟩ := hinv.pendingOf q cur hq
        refine ⟨i, by simp; omega, hk, ?_⟩
        rw [get_append_left_of_lt _ _ _ hi]
        exact hget
    · dsimp only
      intro i h
      simp only [List.length_append, List.length_singleton] at h
      by_cases hiL : i < s.resHist.length
      · rw [get_append_left_of_lt _ _ _ hiL]
        exact hinv.pidRange i hiL
      · have hieq : i = s.resHist.length := by omega
        subst hieq
        rw [get_concat_self]
        exact hp
    · dsimp only
      intro i j hi hj hki hkj heq
      simp only [List.length_append, List.length_singleton] at hi hj
      by_cases hiL : i < s.resHist.length
        <;> by_cases hjL : j < s.resHist.length
      · rw [get_append_left_of_lt _ _ _ hiL,
          get_append_left_of_lt _ _ _ hjL] at heq
        exact hinv.pendingDistinct i j hiL hjL hki hkj heq
      · have hjeq : j = s.resHist.length := by omega
        subst hjeq
        rw [get_append_left_of_lt _ _ _ hiL, get_concat_self] at heq
        have hold := hinv.pendingHolds i hiL hki
        rw [heq, hidle] at hold
        exact absurd hold (holdsPending_idle _)
      · have hieq : i = s.resHist.length := by omega
        subst hieq
        rw [get_concat_self, get_append_left_of_lt _ _ _ hjL] at heq
        have hold := hinv.pendingHolds j hjL hkj
        rw [← heq, hidle] at hold
        exact absurd hold (holdsPending_idle _)
      · omega
  | writeData p cur v hp hres =>
    refine ⟨hinv.nProdsLt, hinv.writeCount, hinv.maxReadCount, hinv.resSeq,
      hinv.commitPrefix, ?_, ?_, hinv.pidRange, hinv.pendingDistinct⟩
    · dsimp only
      intro i h hk
      have hold := hinv.pendingHolds i h hk
      by_cases hqp : (s.resHist.get ⟨i, h⟩).1 = p
      · rw [hqp] at hold ⊢
        rw [hres, holdsPending_reserved] at hold
        rw [Function.update_same, holdsPending_wroteData]
        exact hold
      · rw [Function.update_noteq hqp]
        exact hold
    · dsimp only
      intro q cur2 hq
      by_cases hqp : q = p
      · rw [hqp] at hq ⊢
        rw [Function.update_same, holdsPending_wroteData] at hq
        rw [hq]
        exact hinv.pendingOf p cur (by
          rw [hres]
          exact (holdsPending_reserved _ _ _).mpr rfl)
      · rw [Function.update_noteq hqp] at hq
        exact hinv.pendingOf q cur2 hq
  | commit p cur v hp hwrote hmax =>
    have hpend : PPC.holdsPending (s.prods p) cur := by
      rw [hwrote]
      exact (holdsPending_wroteData _ _ _).mpr rfl
    have hcur : cur = s.commitHist.length % U32 :=
      hmax.symm.trans hinv.maxReadCount
    obtain ⟨hkL, hgetk⟩ := hinv.pending_at_k p cur hpend hcur
    refine ⟨hinv.nProdsLt, hinv.writeCount, ?_, hinv.resSeq, ?_, ?_, ?_,
      hinv.pidRange, ?_⟩
    · dsimp only
      simp only [List.length_append, List.length_singleton]
      rw [hcur, Nat.mod_add_mod]
    · dsimp only
      simp only [List.length_append, List.length_singleton]
      rw [List.take_succ, ← hinv.commitPrefix,
        List.getElem?_eq_getElem hkL]
      simp only [Option.toList_some, List.append_cancel_left_eq,
        List.cons.injEq, and_true]
      exact hgetk.symm
    · dsimp only
      intro i h hk
      simp only [List.length_append, List.length_singleton] at hk
      have hold := hinv.pendingHolds i h (by omega)
      by_cases hqp : (s.resHist.get ⟨i, h⟩).1 = p
      · exfalso
        have heq2 : (s.resHist.get ⟨i, h⟩).1
            = (s.resHist.get ⟨s.commitHist.length, hkL⟩).1 := by
          rw [hgetk, hqp]
        have := hinv.pendingDistinct i s.commitHist.length h hkL
          (by omega) (le_refl _) heq2
        omega
      · rw [Function.update_noteq hqp]
        exact hold
    · dsimp only
      intro q cur2 hq
      by_cases hqp : q = p
      · subst hqp
        rw [Function.update_same] at hq
        exact absurd hq (holdsPending_idle _)
      · rw [Function.update_noteq hqp] at hq
        obtain ⟨i, hi, hk2, hget⟩ := hinv.pendingOf q cur2 hq
        have hik : i ≠ s.commitHist.length := by
          intro he
          subst he
          rw [hget] at hgetk
          exact hqp (congrArg Prod.fst hgetk)
        refine ⟨i, hi, ?_, hget⟩
        simp only [List.length_append, List.length_singleton]
        omega
    · dsimp only
      intro i j hi hj hki hkj heq
      simp only [List.length_append, List.length_singleton] at hki hkj
      exact hinv.pendingDistinct i j hi hj (by omega) (by omega) heq
  | popOk hne =>
    exact ⟨hinv.nProdsLt, hinv.writeCount, hinv.maxReadCount, hinv.resSeq,
      hinv.commitPrefix, hinv.pendingHolds, hinv.pendingOf, hinv.pidRange,
      hinv.pendingDistinct⟩

/-- Helper: the freshly constructed system satisfies the invariant. -/
theorem MPInv_start (slots : List T) (P : Nat) (hP : P < U32) :
    MPInv (MPSys.start slots P) := by
  refine ⟨hP, by simp [MPSys.start], by simp [MPSys.start], ?_, rfl, ?_, ?_, ?_, ?_⟩
  · intro i h
    simp [MPSys.start] at h
  · intro i h
    simp [MPSys.start] at h
  · intro p cur hq
    exact absurd hq (holdsPending_idle _)
  · intro i h
    simp [MPSys.start] at h
  · intro i j hi _ _ _ _
    simp [MPSys.start] at hi

/-- Helper: every reachable state of the multiple-producer system
satisfies the invariant. -/
theorem MPInv_reachable (slots : List T) (P : Nat) (hP : P < U32)
    (s : MPSys T) (h : (MPSys.start slots P).Reachable s) : MPInv s := by
  unfold MPSys.Reachable at h
  induction h with
  | refl => exact MPInv_start slots P hP
  | tail hab hbc ih => exact MPStep_preserves _ _ hbc ih

/-- C3: in every reachable state of the multiple-producer system, the
commit history is exactly the prefix of the reservation history of its
length — `m_maximumReadIndex` advances producer commits in precisely the
order of the `m_writeIndex` reservations, so every committed slot's
predecessor-by-reservation is already committed (it lies earlier in the
same prefix), and the committed counters are 0, 1, 2, … modulo `2 ^ 32`
in order. -/
theorem C3_commits_in_reservation_order (T : Type) (slots : List T) (P : Nat)
    (s : MPSys T) (hP : P < U32)
    (hreach : (MPSys.start slots P).Reachable s) :
    s.commitHist = s.resHist.take s.commitHist.length
    ∧ s.commitHist.map Prod.snd
        = (List.range s.commitHist.length).map (fun i => i % U32) := by
  have hinv := MPInv_reachable slots P hP s hreach
  refine ⟨hinv.commitPrefix, ?_⟩
  apply List.ext_getElem
  · simp
  · intro j h1 h2
    simp only [List.getElem_map, List.getElem_range]
    have hlen : j < s.commitHist.length := by simpa using h1
    have hjres : j < s.resHist.length := lt_of_lt_of_le hlen hinv.k_le_len
    have hcj : s.commitHist[j]? = s.resHist[j]? := by
      conv_lhs => rw [hinv.commitPrefix]
      exact List.getElem?_take_of_lt hlen
    rw [List.getElem?_eq_getElem hlen, List.getElem?_eq_getElem hjres] at hcj
    have hcj2 := Option.some.inj hcj
    rw [hcj2]
    exact hinv.resSeq j hjres

/-- C3 witness: the theorem applied to a concrete two-producer system at
its initial state. -/
theorem C3_witness :
    (MPSys.start ([0, 0] : List Nat) 2).commitHist
      = (MPSys.start ([0, 0] : List Nat) 2).resHist.take
          (MPSys.start ([0, 0] : List Nat) 2).commitHist.length
    ∧ (MPSys.start ([0, 0] : List Nat) 2).commitHist.map Prod.snd
      = (List.range (MPSys.start ([0, 0] : List Nat) 2).commitHist.length).map
          (fun i => i % U32) :=
  C3_commits_in_reservation_order Nat [0, 0] 2 (MPSys.start [0, 0] 2)
    (by decide) Relation.ReflTransGen.refl

/-- The reserve step is genuinely enabled: a two-producer system can take
it (the model is not vacuous). -/
example : (MPSys.start ([0, 0] : List Nat) 2).Reachable
    { MPSys.start ([0, 0] : List Nat) 2 with
      m_writeIndex := ((MPSys.start ([0, 0] : List Nat) 2).m_writeIndex + 1) % U32,
      prods := Function.update (MPSys.start ([0, 0] : List Nat) 2).prods 0
        (PPC.reserved (MPSys.start ([0, 0] : List Nat) 2).m_writeIndex 7),
      resHist := (MPSys.start ([0, 0] : List Nat) 2).resHist
        ++ [(0, (MPSys.start ([0, 0] : List Nat) 2).m_writeIndex)] } :=
  Relation.ReflTransGen.single (MPStep.reserve _ 0 7 (by decide) rfl)
